import Mathlib

/-!
Verification of the token-source / claims-parsing core of the Namespace
TypeScript SDK (src/auth/claims.ts, src/auth/token.ts, src/auth/types.ts).

JavaScript strings are modelled as lists of UTF-16 code units (`JStr`), and
byte buffers as lists of byte values; both are `List Nat`.  Fallible
operations return `Option`.  The remote Issuer Channel, environment flags,
the clock and the cache file are modelled as an explicit `World` record that
an issuance run consumes; the run's observable effects (requested issuance
durations, cache-read attempts, cache writes with their file mode) are
returned alongside the result.
-/

namespace NamespaceSDK

/-- A JavaScript string: a list of UTF-16 code units. -/
abbrev JStr := List Nat

/-! ## claims.ts: token prefixes and dot-splitting -/

/-- Does the list start with the given pattern?  Models String.startsWith.
(The pattern is examined first, so an empty pattern answers true without
inspecting the subject.) -/
def listStartsWith (t : JStr) : JStr → Bool
  | [] => true
  | b :: p =>
    match t with
    | [] => false
    | a :: s => a == b && listStartsWith s p
termination_by structural p => p

/-- The recognized token-kind markers of claims.ts, as code-unit lists:
the markers st_, nsct_, nscw_, oidc_, cognito_. -/
def tokenPrefixes : List JStr :=
  [ [115, 116, 95],
    [110, 115, 99, 116, 95],
    [110, 115, 99, 119, 95],
    [111, 105, 100, 99, 95],
    [99, 111, 103, 110, 105, 116, 111, 95] ]

/-- First marker of `ps` that `t` starts with is removed; otherwise `t` is
returned unchanged.  Embeds the loop of claims.ts stripTokenPrefix. -/
def stripMarkerList (t : JStr) : List JStr → JStr
  | [] => t
  | p :: ps => if listStartsWith t p then t.drop p.length else stripMarkerList t ps

/-- Embeds claims.ts stripTokenPrefix: strip the first matching known marker. -/
def stripTokenPrefix (t : JStr) : JStr :=
  stripMarkerList t tokenPrefixes

/-- Split on the dot (code unit 46), keeping empty segments.
Models the JavaScript call split with a one-character dot separator. -/
def splitOnDot : JStr → List JStr
  | [] => [[]]
  | u :: rest =>
    if u = 46 then [] :: splitOnDot rest
    else
      match splitOnDot rest with
      | [] => [[u]]
      | s :: ss => (u :: s) :: ss

/-! ## base64url (Node Buffer.from with base64url encoding)

Node's base64 decoder is forgiving: code units outside the alphabet (and
padding) are skipped, and a trailing group of fewer than four characters
yields the bytes its bits determine (a lone trailing character is dropped).
The standard-alphabet units + and / are accepted as 62 and 63 as well. -/

/-- The code unit of base64url digit `s` (for `s < 64`). -/
def sixToUnit (s : Nat) : Nat :=
  if s < 26 then 65 + s
  else if s < 52 then 97 + (s - 26)
  else if s < 62 then 48 + (s - 52)
  else if s = 62 then 45
  else 95

/-- The base64 digit value of a code unit, if it is in the (extended)
alphabet: A-Z, a-z, 0-9, - and _ (base64url), and + and / (base64). -/
def unitToSix (u : Nat) : Option Nat :=
  if 65 ≤ u ∧ u ≤ 90 then some (u - 65)
  else if 97 ≤ u ∧ u ≤ 122 then some (u - 97 + 26)
  else if 48 ≤ u ∧ u ≤ 57 then some (u - 48 + 52)
  else if u = 45 ∨ u = 43 then some 62
  else if u = 95 ∨ u = 47 then some 63
  else none

/-- base64url-encode a byte list (no padding, as Node emits for base64url). -/
def b64urlEncode : List Nat → List Nat
  | [] => []
  | [a] => [sixToUnit (a / 4), sixToUnit (a % 4 * 16)]
  | [a, b] => [sixToUnit (a / 4), sixToUnit (a % 4 * 16 + b / 16), sixToUnit (b % 16 * 4)]
  | a :: b :: c :: rest =>
      sixToUnit (a / 4) :: sixToUnit (a % 4 * 16 + b / 16) ::
      sixToUnit (b % 16 * 4 + c / 64) :: sixToUnit (c % 64) :: b64urlEncode rest

/-- Reassemble bytes from a list of six-bit digit values. -/
def bytesOfSixes : List Nat → List Nat
  | s1 :: s2 :: s3 :: s4 :: rest =>
      (s1 * 4 + s2 / 16) :: (s2 % 16 * 16 + s3 / 4) :: (s3 % 4 * 64 + s4) ::
        bytesOfSixes rest
  | [s1, s2] => [s1 * 4 + s2 / 16]
  | [s1, s2, s3] => [s1 * 4 + s2 / 16, s2 % 16 * 16 + s3 / 4]
  | _ => []

/-- Decode base64url text to bytes, skipping units outside the alphabet. -/
def b64urlDecode (s : JStr) : List Nat :=
  bytesOfSixes (s.filterMap unitToSix)

/-! ## UTF-8 decoding (Node Buffer.toString with utf8)

Bytes to UTF-16 code units; code points above 0xFFFF become surrogate
pairs; ill-formed sequences yield the replacement character 0xFFFD.  (Node
additionally rejects overlong forms; that refinement is not modelled, and
no theorem below depends on non-ASCII input.) -/

/-- Worker for `utf8Decode`, structurally recursive on a fuel that the
wrapper sets to the byte count (each step consumes at least one byte, so
the fuel never runs out on the wrapper's calls). -/
def utf8DecodeGo : Nat → List Nat → List Nat
  | 0, _ => []
  | _, [] => []
  | fuel + 1, b :: rest =>
    if b < 128 then b :: utf8DecodeGo fuel rest
    else if 194 ≤ b ∧ b ≤ 223 then
      match rest with
      | b2 :: rest2 =>
        if 128 ≤ b2 ∧ b2 ≤ 191 then
          ((b - 192) * 64 + (b2 - 128)) :: utf8DecodeGo fuel rest2
        else 0xFFFD :: utf8DecodeGo fuel (b2 :: rest2)
      | [] => [0xFFFD]
    else if 224 ≤ b ∧ b ≤ 239 then
      match rest with
      | b2 :: b3 :: rest3 =>
        if 128 ≤ b2 ∧ b2 ≤ 191 ∧ 128 ≤ b3 ∧ b3 ≤ 191 then
          ((b - 224) * 4096 + (b2 - 128) * 64 + (b3 - 128)) :: utf8DecodeGo fuel rest3
        else 0xFFFD :: utf8DecodeGo fuel (b2 :: b3 :: rest3)
      | _ => [0xFFFD]
    else if 240 ≤ b ∧ b ≤ 244 then
      match rest with
      | b2 :: b3 :: b4 :: rest4 =>
        if 128 ≤ b2 ∧ b2 ≤ 191 ∧ 128 ≤ b3 ∧ b3 ≤ 191 ∧ 128 ≤ b4 ∧ b4 ≤ 191 then
          let cp := (b - 240) * 262144 + (b2 - 128) * 4096 + (b3 - 128) * 64 + (b4 - 128)
          if cp < 65536 then cp :: utf8DecodeGo fuel rest4
          else (0xD800 + (cp - 65536) / 1024) :: (0xDC00 + (cp - 65536) % 1024) ::
                 utf8DecodeGo fuel rest4
        else 0xFFFD :: utf8DecodeGo fuel (b2 :: b3 :: b4 :: rest4)
      | _ => [0xFFFD]
    else 0xFFFD :: utf8DecodeGo fuel rest

def utf8Decode (bytes : List Nat) : List Nat :=
  utf8DecodeGo bytes.length bytes

/-! ## A model of JavaScript JSON values

Strings are UTF-16 code-unit lists; numbers are modelled as integers
(every claims field the code reads is integral; on integers of magnitude
at most 2^53 the double-precision numbers of JavaScript are exact, which
the well-formedness predicate below records). -/

mutual
/-- A JSON value as produced by the JavaScript JSON.parse. -/
inductive JsValue where
  | jnull : JsValue
  | jbool : Bool → JsValue
  | jnum : Int → JsValue
  | jstr : JStr → JsValue
  | jarr : JsArr → JsValue
  | jobj : JsObj → JsValue

/-- A list of array elements. -/
inductive JsArr where
  | anil : JsArr
  | acons : JsValue → JsArr → JsArr

/-- A list of object members, in insertion order. -/
inductive JsObj where
  | onil : JsObj
  | ocons : JStr → JsValue → JsObj → JsObj
end

deriving instance DecidableEq for JsValue

/-- Member lookup on an object value, last occurrence winning (a duplicate
key in JSON text leaves the last value, as JSON.parse does); `none` on
non-objects and absent keys, modelling property access yielding undefined. -/
def jget (v : JsValue) (key : JStr) : Option JsValue :=
  match v with
  | .jobj o => go o
  | _ => none
where
  /-- Last binding of the key in the member list. -/
  go : JsObj → Option JsValue
  | .onil => none
  | .ocons k x rest => match go rest with
      | some r => some r
      | none => if k = key then some x else none

/-! ## Canonical JSON text of a value

Used to state the claims-extraction round trip: a credential payload that
is the base64url encoding of JSON text denoting an object.  The canonical
rendering escapes every string code unit in the uXXXX form, so its output
is pure printable ASCII and its UTF-8 bytes are its code units. -/

/-- The lowercase hexadecimal digit unit for `n < 16`. -/
def hexUnit (n : Nat) : Nat :=
  if n < 10 then 48 + n else 87 + n

/-- One string code unit, escaped in the uXXXX form (unit 92 is the
backslash, 117 is the letter u). -/
def escapeUnit (u : Nat) : List Nat :=
  [92, 117, hexUnit (u / 4096 % 16), hexUnit (u / 256 % 16),
   hexUnit (u / 16 % 16), hexUnit (u % 16)]

/-- A JSON string literal for `s`: quote, escaped units, quote. -/
def strLitUnits (s : JStr) : List Nat :=
  34 :: (s.flatMap escapeUnit ++ [34])

/-- Worker for the decimal digit units of `n` (most significant first,
before `acc`), structurally recursive on a fuel the wrapper sets to `n`
itself, which bounds the digit count amply. -/
def natDigitsGo : Nat → Nat → List Nat → List Nat
  | 0, n, acc => (48 + n % 10) :: acc
  | fuel + 1, n, acc =>
    if n < 10 then (48 + n) :: acc
    else natDigitsGo fuel (n / 10) ((48 + n % 10) :: acc)

/-- Decimal digit units of `n`, most significant first. -/
def natDigits (n : Nat) : List Nat :=
  natDigitsGo n n []

/-- Decimal units of an integer (unit 45 is the minus sign). -/
def intUnits (n : Int) : List Nat :=
  (if n < 0 then [45] else []) ++ natDigits n.natAbs

mutual
/-- Canonical JSON text (as code units) of a value. -/
def jsonText : JsValue → List Nat
  | .jnull => [110, 117, 108, 108]
  | .jbool true => [116, 114, 117, 101]
  | .jbool false => [102, 97, 108, 115, 101]
  | .jnum n => intUnits n
  | .jstr s => strLitUnits s
  | .jarr a => 91 :: (jsonTextItems a ++ [93])
  | .jobj o => 123 :: (jsonTextMembers o ++ [125])

/-- Comma-separated renderings of an element list. -/
def jsonTextItems : JsArr → List Nat
  | .anil => []
  | .acons v rest => jsonText v ++ jsonTextItemsTail rest

/-- Each further element, preceded by a comma. -/
def jsonTextItemsTail : JsArr → List Nat
  | .anil => []
  | .acons v rest => 44 :: (jsonText v ++ jsonTextItemsTail rest)

/-- Comma-separated key-colon-value renderings of a member list. -/
def jsonTextMembers : JsObj → List Nat
  | .onil => []
  | .ocons k v rest => strLitUnits k ++ 58 :: (jsonText v ++ jsonTextMembersTail rest)

/-- Each further member, preceded by a comma. -/
def jsonTextMembersTail : JsObj → List Nat
  | .onil => []
  | .ocons k v rest =>
      44 :: (strLitUnits k ++ 58 :: (jsonText v ++ jsonTextMembersTail rest))
end

/-! ## A model of JSON.parse

A recursive-descent parser over code units, total via a fuel argument;
`none` models a thrown SyntaxError.  Two deliberate narrowings, marked
below: a number with a fraction or exponent part is rejected rather than
read as a double (numbers are modelled as integers), and a leading zero
before further digits is accepted rather than rejected. -/

/-- JSON whitespace: space, tab, line feed, carriage return. -/
def isWsUnit (u : Nat) : Bool :=
  u = 32 || u = 9 || u = 10 || u = 13

/-- Drop leading JSON whitespace. -/
def skipWs : JStr → JStr
  | [] => []
  | u :: rest => if isWsUnit u then skipWs rest else u :: rest

/-- Is the unit a decimal digit? -/
def isDigitUnit (u : Nat) : Bool :=
  48 ≤ u && u ≤ 57

/-- Longest digit run at the front, and the remainder. -/
def takeDigits : JStr → JStr × JStr
  | [] => ([], [])
  | u :: rest =>
    if isDigitUnit u then
      let (ds, r) := takeDigits rest
      (u :: ds, r)
    else ([], u :: rest)

/-- The number a digit-unit run denotes. -/
def digitsVal (ds : JStr) : Nat :=
  ds.foldl (fun a d => a * 10 + (d - 48)) 0

/-- Does the string begin with the given code unit? -/
def headIs (u : Nat) : JStr → Bool
  | v :: _ => v = u
  | [] => false

/-- Read a JSON number token.  Narrowing: a fraction or exponent part
(units 46, 101, 69) makes the read fail, since only integral numbers are
modelled; JSON.parse would read a double there. -/
def parseNumTok (s : JStr) : Option (Int × JStr) :=
  let neg := headIs 45 s
  let s1 := if neg then s.tail else s
  match takeDigits s1 with
  | ([], _) => none
  | (ds, r) =>
    if headIs 46 r || headIs 101 r || headIs 69 r then none
    else some ((if neg then -1 else 1) * (digitsVal ds : Int), r)

/-- Hexadecimal digit value of a code unit, if any. -/
def hexVal (u : Nat) : Option Nat :=
  if 48 ≤ u ∧ u ≤ 57 then some (u - 48)
  else if 97 ≤ u ∧ u ≤ 102 then some (u - 97 + 10)
  else if 65 ≤ u ∧ u ≤ 70 then some (u - 65 + 10)
  else none

/-- Value of a two-character escape (unit 34 quote, 92 backslash, 47
slash, 98 backspace, 102 form feed, 110 line feed, 114 return, 116 tab). -/
def unescapeUnit (u : Nat) : Option Nat :=
  if u = 34 then some 34
  else if u = 92 then some 92
  else if u = 47 then some 47
  else if u = 98 then some 8
  else if u = 102 then some 12
  else if u = 110 then some 10
  else if u = 114 then some 13
  else if u = 116 then some 9
  else none

/-- Body of a string literal after the opening quote: units until the
closing quote, with both escape forms; control units must be escaped. -/
def parseStrAux (acc : JStr) : JStr → Option (JStr × JStr)
  | 34 :: rest => some (acc.reverse, rest)
  | 92 :: 117 :: a :: b :: c :: d :: rest =>
    (match hexVal a, hexVal b, hexVal c, hexVal d with
     | some va, some vb, some vc, some vd =>
         parseStrAux ((((va * 16 + vb) * 16 + vc) * 16 + vd) :: acc) rest
     | _, _, _, _ => none)
  | 92 :: e :: rest =>
    (match unescapeUnit e with
     | some u => parseStrAux (u :: acc) rest
     | none => none)
  | u :: rest => if u < 32 then none else parseStrAux (u :: acc) rest
  | [] => none

mutual
/-- One JSON value, by recursive descent (fuel-bounded), dispatching on
the first non-whitespace code unit: the null, true and false literals, a
string, an array, an object, or a number. -/
def parseVal : Nat → JStr → Option (JsValue × JStr)
  | 0, _ => none
  | fuel + 1, s =>
    match skipWs s with
    | [] => none
    | u :: r =>
      if u = 110 then
        (if listStartsWith r [117, 108, 108] then some (.jnull, r.drop 3)
         else none)
      else if u = 116 then
        (if listStartsWith r [114, 117, 101] then some (.jbool true, r.drop 3)
         else none)
      else if u = 102 then
        (if listStartsWith r [97, 108, 115, 101] then some (.jbool false, r.drop 4)
         else none)
      else if u = 34 then
        (match parseStrAux [] r with
         | some (cs, r2) => some (.jstr cs, r2)
         | none => none)
      else if u = 91 then
        (if headIs 93 (skipWs r) then some (.jarr .anil, (skipWs r).tail)
         else match parseItems fuel (skipWs r) with
           | some (items, r3) => some (.jarr items, r3)
           | none => none)
      else if u = 123 then
        (if headIs 125 (skipWs r) then some (.jobj .onil, (skipWs r).tail)
         else match parseMembers fuel (skipWs r) with
           | some (ms, r3) => some (.jobj ms, r3)
           | none => none)
      else if u = 45 || isDigitUnit u then
        (match parseNumTok (u :: r) with
         | some (n, r2) => some (.jnum n, r2)
         | none => none)
      else none

/-- One or more comma-separated array elements up to the closing bracket. -/
def parseItems : Nat → JStr → Option (JsArr × JStr)
  | 0, _ => none
  | fuel + 1, s =>
    match parseVal fuel s with
    | none => none
    | some (v, r) =>
      let r1 := skipWs r
      if headIs 44 r1 then
        (match parseItems fuel (skipWs r1.tail) with
         | some (items, r3) => some (.acons v items, r3)
         | none => none)
      else if headIs 93 r1 then some (.acons v .anil, r1.tail)
      else none

/-- One or more comma-separated object members up to the closing brace. -/
def parseMembers : Nat → JStr → Option (JsObj × JStr)
  | 0, _ => none
  | fuel + 1, s =>
    match skipWs s with
    | [] => none
    | u :: r =>
      if u = 34 then
        (match parseStrAux [] r with
         | none => none
         | some (k, r1) =>
           if headIs 58 (skipWs r1) then
             (match parseVal fuel (skipWs ((skipWs r1).tail)) with
              | none => none
              | some (v, r3) =>
                let r4 := skipWs r3
                if headIs 44 r4 then
                  (match parseMembers fuel (skipWs r4.tail) with
                   | some (ms, r5) => some (.ocons k v ms, r5)
                   | none => none)
                else if headIs 125 r4 then some (.ocons k v .onil, r4.tail)
                else none)
           else none)
      else none
end

/-- A complete JSON document: one value, then only whitespace.  Models
JSON.parse, with `none` for a thrown SyntaxError. -/
def jsonParse (s : JStr) : Option JsValue :=
  match parseVal (s.length + 1) s with
  | some (v, r) => if skipWs r = [] then some v else none
  | none => none

/-! ## claims.ts: extractClaims and its derived helpers -/

/-- Embeds claims.ts extractClaims: strip a known kind marker, require
exactly three dot-separated segments, base64url-decode the second and
parse its UTF-8 text as JSON.  `none` models the caught exception and the
explicit null returns. -/
def extractClaims (token : JStr) : Option JsValue :=
  let cleanToken := stripTokenPrefix token
  let parts := splitOnDot cleanToken
  if parts.length = 3 then
    jsonParse (utf8Decode (b64urlDecode (parts.get? 1 |>.getD [])))
  else none

/-- The key tenant_id, as code units. -/
def tenantKey : JStr := [116, 101, 110, 97, 110, 116, 95, 105, 100]

/-- The key exp, as code units. -/
def expKey : JStr := [101, 120, 112]

/-- The exp claim of a decoded claims value when it is an integral number,
else 0: models the JavaScript expression reading exp with a zero fallback
(absence gives undefined, which the fallback replaces by 0; an exp of 0 is
falsy and also yields 0, the same value). -/
def expOrZero (claims : JsValue) : Int :=
  match jget claims expKey with
  | some (.jnum n) => n
  | _ => 0

/-- Embeds claims.ts isTokenExpired: false when the exp claim is falsy
(absent or zero), else compare now plus the buffer against exp seconds
times 1000. -/
def isTokenExpired (claims : JsValue) (bufferMs : Int) (now : Int) : Bool :=
  match jget claims expKey with
  | some (.jnum n) => if n = 0 then false else decide (now + bufferMs ≥ n * 1000)
  | _ => false

/-- Embeds claims.ts getTenantId: the tenant_id claim of a token when its
claims decode and the field is a truthy string, else null (a `none` result
merges the null-claims and falsy-field cases, as the or-null fallback in
the code does). -/
def getTenantId (token : JStr) : Option JStr :=
  match extractClaims token with
  | some claims =>
    (match jget claims tenantKey with
     | some (.jstr s) => if s = [] then none else some s
     | _ => none)
  | none => none

/-- Embeds claims.ts getTokenExpiration: exp seconds times 1000 when the
claims decode and exp is a truthy number, else null. -/
def getTokenExpiration (token : JStr) : Option Int :=
  match extractClaims token with
  | some claims =>
    (match jget claims expKey with
     | some (.jnum n) => if n = 0 then none else some (n * 1000)
     | _ => none)
  | none => none

/-! ## token.ts: the token source and its session-to-bearer exchange

The class LoadedToken holds an optional static bearer credential, an
optional session credential and an optional cache directory (the lazily
constructed RPC client handle carries no decision-relevant state and is
not modelled).  JavaScript truthiness tests on these fields are modelled
by `Option` presence (the empty string, which is also falsy, is
represented as `none`).

Effects are explicit: a `World` supplies what the environment would
answer during one issuance run - the clock, the force-refresh debug flag,
the result of reading the cache file, the Issuer Channel's reply and
whether a cache write would succeed - and the run reports its observable
actions in an `IssueOutcome`. -/

/-- The persisted credential-file shape of types.ts (TokenJson). -/
structure TokenJson where
  bearer_token : Option JStr
  session_token : Option JStr
deriving DecidableEq

/-- The state of one LoadedToken instance. -/
structure LoadedToken where
  bearerToken : Option JStr
  sessionToken : Option JStr
  cacheDir : Option JStr
deriving DecidableEq

/-- The distinct throw sites of token.ts issueToken / issueFromSession:
no credential at all, no session credential inside issueFromSession,
undecodable session claims, and a failed remote issuance call. -/
inductive TokenError where
  | noCredential : TokenError
  | noSession : TokenError
  | claimsError : TokenError
  | issuance : TokenError
deriving DecidableEq

instance {ε α : Type} [DecidableEq ε] [DecidableEq α] :
    DecidableEq (Except ε α) := fun x y =>
  match x, y with
  | .ok a, .ok b =>
    if h : a = b then .isTrue (h ▸ rfl)
    else .isFalse (fun he => by cases he; exact h rfl)
  | .error a, .error b =>
    if h : a = b then .isTrue (h ▸ rfl)
    else .isFalse (fun he => by cases he; exact h rfl)
  | .ok _, .error _ => .isFalse (fun he => by cases he)
  | .error _, .ok _ => .isFalse (fun he => by cases he)

/-- Everything the environment answers during one issuance run.
`cacheRead` is the content of the cache file when reading it succeeds
(`none` is a missing file or any read error - both are caught alike);
`issuer` is the bearer credential the Issuer Channel returns, `none` a
failed remote call; `cacheWriteOk` tells whether a cache write would
succeed - the code ignores this outcome, which the theorems make visible. -/
structure World where
  now : Int
  forceFlag : Bool
  cacheRead : Option JStr
  issuer : Option JStr
  cacheWriteOk : Bool

/-- The observable outcome of one issuance run: the result (or thrown
error), the durations requested from the Issuer Channel in milliseconds
(the wire carries floor(ms / 1000) seconds), whether a cache-file read
was attempted, and the attempted cache writes as content-mode pairs. -/
structure IssueOutcome where
  res : Except TokenError JStr
  requested : List Int
  cacheReadAttempted : Bool
  cacheWrites : List (JStr × Nat)

/-- The try-block around the cache read in issueFromSession: with a cache
directory, the content of the cache file when reading succeeded, its
claims decode, the tenant claims agree with the session's and exp times
1000 exceeds now plus minDuration; `none` (fall through to a fresh
issuance) otherwise - a read or decode failure is caught and treated as a
miss. -/
def cacheProbe (cacheDir readResult : Option JStr) (sessionClaims : JsValue)
    (now minDuration : Int) : Option JStr :=
  match cacheDir with
  | none => none
  | some _ =>
    match readResult with
    | none => none
    | some cacheContents =>
      match extractClaims cacheContents with
      | none => none
      | some cacheClaims =>
        if jget cacheClaims tenantKey = jget sessionClaims tenantKey
            ∧ expOrZero cacheClaims * 1000 > now + minDuration
        then some cacheContents
        else none

/-- Embeds LoadedToken.issueFromSession.  Control flow of the source, in
order: guard on a session credential being present; effective force
(argument or debug flag) goes straight to a remote issuance requesting
minDuration; otherwise decode the session claims or throw; then probe the
cache (`cacheProbe`); on a miss request twice minDuration capped at one
hour, best-effort write the new credential to the cache (mode 0o600,
the write's own success ignored), and return it. -/
def issueFromSession (t : LoadedToken) (minDuration : Int) (force : Bool)
    (w : World) : IssueOutcome :=
  match t.sessionToken with
  | none => ⟨.error .noSession, [], false, []⟩
  | some st =>
    let forceRefresh := force || w.forceFlag
    if forceRefresh then
      match w.issuer with
      | none => ⟨.error .issuance, [minDuration], false, []⟩
      | some tok => ⟨.ok tok, [minDuration], false, []⟩
    else
      match extractClaims st with
      | none => ⟨.error .claimsError, [], false, []⟩
      | some sessionClaims =>
        match cacheProbe t.cacheDir w.cacheRead sessionClaims w.now minDuration with
        | some contents => ⟨.ok contents, [], t.cacheDir.isSome, []⟩
        | none =>
          let requestDuration :=
            if minDuration * 2 > 3600000 then 3600000 else minDuration * 2
          match w.issuer with
          | none => ⟨.error .issuance, [requestDuration], t.cacheDir.isSome, []⟩
          | some newToken =>
            ⟨.ok newToken, [requestDuration], t.cacheDir.isSome,
             match t.cacheDir with
             | some _ => [(newToken, 0o600)]
             | none => []⟩

/-- Embeds LoadedToken.issueToken: session-backed sources exchange via
issueFromSession, else a static bearer credential is returned as is, else
the no-credential error is thrown. -/
def issueToken (t : LoadedToken) (minDuration : Int) (force : Bool)
    (w : World) : IssueOutcome :=
  match t.sessionToken with
  | some _ => issueFromSession t minDuration force w
  | none =>
    match t.bearerToken with
    | some b => ⟨.ok b, [], false, []⟩
    | none => ⟨.error .noCredential, [], false, []⟩

/-- Embeds the constructor call in loadFromFile: the parsed credential
file's fields plus the directory of the file as cache directory. -/
def loadFromFile (tj : TokenJson) (dir : JStr) : LoadedToken :=
  ⟨tj.bearer_token, tj.session_token, some dir⟩

/-- Embeds loadWorkloadToken after the file read: require a bearer
credential, then rebuild the source with only the bearer credential
(session credential and cache directory discarded); `none` models the
thrown workload-token error. -/
def loadWorkloadToken (tj : TokenJson) (dir : JStr) : Option LoadedToken :=
  let loaded := loadFromFile tj dir
  match loaded.bearerToken with
  | none => none
  | some b => some ⟨some b, none, none⟩

/-- Embeds fromBearerToken. -/
def fromBearerToken (token : JStr) : LoadedToken :=
  ⟨some token, none, none⟩

/-! ## Concrete example credentials for witnesses and counterexamples -/

/-- The tenant identifier t1, as code units. -/
def exTenant : JStr := [116, 49]

/-- The members of the example claims object: exp 2 (seconds),
tenant_id t1. -/
def exClaimsMembers : JsObj :=
  .ocons expKey (.jnum 2) (.ocons tenantKey (.jstr exTenant) .onil)

/-- A claims object: exp 2 (seconds), tenant_id t1. -/
def exClaimsObj : JsValue := .jobj exClaimsMembers

/-- A structured credential h.base64url(exClaimsObj).s . -/
def exSessionTok : JStr :=
  [104] ++ 46 :: b64urlEncode (jsonText exClaimsObj) ++ 46 :: [115]

/-- A claims object with a tenant_id and no exp field. -/
def exNoExpObj : JsValue :=
  .jobj (.ocons tenantKey (.jstr exTenant) .onil)

/-- A structured credential whose claims lack an exp field. -/
def exNoExpTok : JStr :=
  [104] ++ 46 :: b64urlEncode (jsonText exNoExpObj) ++ 46 :: [115]

/-! ## Well-formedness of a JavaScript value

What a value must satisfy for the integer-and-code-unit model to agree
exactly with JavaScript: string code units fit in 16 bits, numbers are
exact in double precision, and object keys are distinct (JSON.parse keeps
only the last binding of a duplicated key). -/

/-- Is the key bound in the member list? -/
def hasKey : JsObj → JStr → Bool
  | .onil, _ => false
  | .ocons k _ rest, key => k = key || hasKey rest key

mutual
/-- Well-formedness of a value (see the section comment). -/
def wfVal : JsValue → Bool
  | .jnull => true
  | .jbool _ => true
  | .jnum n => n.natAbs ≤ 2 ^ 53
  | .jstr s => s.all (· < 65536)
  | .jarr a => wfArr a
  | .jobj o => wfObj o

/-- Well-formedness of every element. -/
def wfArr : JsArr → Bool
  | .anil => true
  | .acons v rest => wfVal v && wfArr rest

/-- Well-formedness of every member, with pairwise-distinct keys. -/
def wfObj : JsObj → Bool
  | .onil => true
  | .ocons k v rest =>
      k.all (· < 65536) && !(hasKey rest k) && wfVal v && wfObj rest
end

/-- Can `r` legally follow a complete JSON value in context: nothing, a
comma, a closing bracket or a closing brace. -/
def valEnd : JStr → Bool
  | [] => true
  | u :: _ => u = 44 || u = 93 || u = 125

/-! # Theorems -/

/-! ## base64url: decoding inverts encoding -/

theorem unitToSix_sixToUnit : ∀ s < 64, unitToSix (sixToUnit s) = some s := by
  decide

theorem sixToUnit_ne_dot (s : Nat) : sixToUnit s ≠ 46 := by
  unfold sixToUnit
  split <;> [omega; split <;> [omega; split <;> [omega; split <;> omega]]]

theorem filterMap_b64urlEncode (bytes : List Nat) (hb : ∀ x ∈ bytes, x < 256) :
    ∃ sixes : List Nat, bytes.all (· < 256)
      ∧ (b64urlEncode bytes).filterMap unitToSix = sixes := ⟨_, by simpa using hb, rfl⟩

theorem b64_roundtrip :
    ∀ bytes : List Nat, (∀ x ∈ bytes, x < 256) →
      b64urlDecode (b64urlEncode bytes) = bytes
  | [] => fun _ => rfl
  | [a] => fun h => by
    have ha : a < 256 := h a (by simp)
    have h1 := unitToSix_sixToUnit (a / 4) (by omega)
    have h2 := unitToSix_sixToUnit (a % 4 * 16) (by omega)
    simp only [b64urlDecode, b64urlEncode, List.filterMap_cons, h1, h2,
      List.filterMap_nil, bytesOfSixes]
    simp
    omega
  | [a, b] => fun h => by
    have ha : a < 256 := h a (by simp)
    have hb : b < 256 := h b (by simp)
    have h1 := unitToSix_sixToUnit (a / 4) (by omega)
    have h2 := unitToSix_sixToUnit (a % 4 * 16 + b / 16) (by omega)
    have h3 := unitToSix_sixToUnit (b % 16 * 4) (by omega)
    simp only [b64urlDecode, b64urlEncode, List.filterMap_cons, h1, h2, h3,
      List.filterMap_nil, bytesOfSixes]
    simp
    constructor <;> omega
  | a :: b :: c :: rest => fun h => by
    have ha : a < 256 := h a (by simp)
    have hb : b < 256 := h b (by simp)
    have hc : c < 256 := h c (by simp)
    have h1 := unitToSix_sixToUnit (a / 4) (by omega)
    have h2 := unitToSix_sixToUnit (a % 4 * 16 + b / 16) (by omega)
    have h3 := unitToSix_sixToUnit (b % 16 * 4 + c / 64) (by omega)
    have h4 := unitToSix_sixToUnit (c % 64) (by omega)
    have ih := b64_roundtrip rest (fun x hx => h x (by simp [hx]))
    simp only [b64urlDecode, b64urlEncode, List.filterMap_cons, h1, h2, h3, h4,
      bytesOfSixes] at ih ⊢
    simp only [List.cons.injEq]
    refine ⟨by omega, by omega, by omega, ih⟩

theorem b64urlEncode_no_dot (bytes : List Nat) :
    ∀ u ∈ b64urlEncode bytes, u ≠ 46 := by
  induction bytes using b64urlEncode.induct with
  | case1 => simp [b64urlEncode]
  | case2 a => simp [b64urlEncode, sixToUnit_ne_dot]
  | case3 a b => simp [b64urlEncode, sixToUnit_ne_dot]
  | case4 a b c rest ih =>
    simp only [b64urlEncode, List.mem_cons]
    rintro u (rfl | rfl | rfl | rfl | hu)
    any_goals apply sixToUnit_ne_dot
    exact ih u hu

/-! ## Dot-splitting -/

theorem splitOnDot_no_dot :
    ∀ s : JStr, (∀ u ∈ s, u ≠ 46) → splitOnDot s = [s]
  | [] => fun _ => rfl
  | u :: rest => fun h => by
    have hu : u ≠ 46 := h u (by simp)
    have ih := splitOnDot_no_dot rest (fun x hx => h x (by simp [hx]))
    simp [splitOnDot, hu, ih]

theorem splitOnDot_append :
    ∀ a r : JStr, (∀ u ∈ a, u ≠ 46) →
      splitOnDot (a ++ 46 :: r) = a :: splitOnDot r
  | [], r => fun _ => by simp [splitOnDot]
  | u :: rest, r => fun h => by
    have hu : u ≠ 46 := h u (by simp)
    have ih := splitOnDot_append rest r (fun x hx => h x (by simp [hx]))
    simp [splitOnDot, hu, ih]

/-! ## Marker stripping over a dotted credential -/

theorem listStartsWith_length_le :
    ∀ (p h r : JStr), listStartsWith (h ++ 46 :: r) p = true → 46 ∉ p →
      p.length ≤ h.length
  | [], _, _ => fun _ _ => by simp
  | b :: p2, [], r => fun hs hnp => by
    simp only [List.nil_append, listStartsWith, Bool.and_eq_true, beq_iff_eq] at hs
    exact absurd (hs.1 ▸ List.mem_cons_self b p2) (hs.1 ▸ hnp)
  | b :: p2, a :: h2, r => fun hs hnp => by
    simp only [List.cons_append, listStartsWith, Bool.and_eq_true] at hs
    have := listStartsWith_length_le p2 h2 r hs.2
      (fun hmem => hnp (List.mem_cons_of_mem b hmem))
    simpa using this

theorem drop_append_of_le {n : Nat} :
    ∀ (a b : List Nat), n ≤ a.length → (a ++ b).drop n = a.drop n ++ b := by
  intro a b h
  rw [List.drop_append_eq_append_drop]
  have hz : n - a.length = 0 := by omega
  rw [hz, List.drop_zero]

theorem stripMarkerList_dotted :
    ∀ (ps : List JStr) (h r : JStr), (∀ p ∈ ps, 46 ∉ p) → (∀ u ∈ h, u ≠ 46) →
      ∃ h2 : JStr, (∀ u ∈ h2, u ≠ 46)
        ∧ stripMarkerList (h ++ 46 :: r) ps = h2 ++ 46 :: r
  | [], h, r => fun _ hh => ⟨h, hh, rfl⟩
  | p :: ps, h, r => fun hp hh => by
    by_cases hs : listStartsWith (h ++ 46 :: r) p = true
    · refine ⟨h.drop p.length, fun u hu => hh u (List.mem_of_mem_drop hu), ?_⟩
      have hle := listStartsWith_length_le p h r hs (hp p (by simp))
      simp only [stripMarkerList, hs, if_true]
      exact drop_append_of_le h (46 :: r) hle
    · obtain ⟨h2, hh2, heq⟩ := stripMarkerList_dotted ps h r
        (fun q hq => hp q (by simp [hq])) hh
      exact ⟨h2, hh2, by simp only [stripMarkerList, hs, if_false]; exact heq⟩

/-! ## ASCII facts about the canonical JSON text -/

theorem natDigitsGo_lt128 :
    ∀ (fuel n : Nat) (acc : List Nat), (∀ x ∈ acc, x < 128) →
      ∀ x ∈ natDigitsGo fuel n acc, x < 128
  | 0, n, acc => fun hacc x hx => by
    simp only [natDigitsGo, List.mem_cons] at hx
    rcases hx with rfl | hx
    · omega
    · exact hacc x hx
  | fuel + 1, n, acc => fun hacc x hx => by
    simp only [natDigitsGo] at hx
    split at hx
    · rcases List.mem_cons.mp hx with rfl | hx
      · omega
      · exact hacc x hx
    · exact natDigitsGo_lt128 fuel (n / 10) _
        (fun y hy => by
          rcases List.mem_cons.mp hy with rfl | hy
          · omega
          · exact hacc y hy) x hx

theorem intUnits_lt128 (n : Int) : ∀ x ∈ intUnits n, x < 128 := by
  intro x hx
  simp only [intUnits, natDigits, List.mem_append] at hx
  rcases hx with hx | hx
  · split at hx <;> simp_all
  · exact natDigitsGo_lt128 _ _ [] (by simp) x hx

theorem hexUnit_lt128 (n : Nat) (h : n < 16) : hexUnit n < 128 := by
  unfold hexUnit
  split <;> omega

theorem escapeUnit_lt128 (u : Nat) : ∀ x ∈ escapeUnit u, x < 128 := by
  intro x hx
  have h16 : ∀ k : Nat, k % 16 < 16 := fun k => Nat.mod_lt _ (by omega)
  simp only [escapeUnit, List.mem_cons, List.not_mem_nil, or_false] at hx
  rcases hx with rfl | rfl | rfl | rfl | rfl | rfl
  · omega
  · omega
  all_goals exact hexUnit_lt128 _ (h16 _)

theorem strLitUnits_lt128 (s : JStr) : ∀ x ∈ strLitUnits s, x < 128 := by
  intro x hx
  simp only [strLitUnits, List.mem_cons, List.mem_append, List.mem_singleton,
    List.not_mem_nil, or_false] at hx
  rcases hx with rfl | hx | rfl
  · omega
  · obtain ⟨u, -, hu⟩ := List.mem_flatMap.mp hx
    exact escapeUnit_lt128 u x hu
  · omega

mutual
theorem jsonText_lt128 : ∀ v : JsValue, ∀ x ∈ jsonText v, x < 128
  | .jnull => by intro x hx; simp only [jsonText] at hx; fin_cases hx <;> omega
  | .jbool b => by
    cases b <;> (intro x hx; simp only [jsonText] at hx; fin_cases hx <;> omega)
  | .jnum n => by intro x hx; exact intUnits_lt128 n x hx
  | .jstr s => by intro x hx; exact strLitUnits_lt128 s x hx
  | .jarr a => by
    intro x hx
    simp only [jsonText, List.mem_cons, List.mem_append, List.mem_singleton,
      List.not_mem_nil, or_false] at hx
    rcases hx with rfl | hx | rfl
    · omega
    · exact jsonTextItems_lt128 a x hx
    · omega
  | .jobj o => by
    intro x hx
    simp only [jsonText, List.mem_cons, List.mem_append, List.mem_singleton,
      List.not_mem_nil, or_false] at hx
    rcases hx with rfl | hx | rfl
    · omega
    · exact jsonTextMembers_lt128 o x hx
    · omega

theorem jsonTextItems_lt128 : ∀ a : JsArr, ∀ x ∈ jsonTextItems a, x < 128
  | .anil => by simp [jsonTextItems]
  | .acons v rest => by
    intro x hx
    simp only [jsonTextItems, List.mem_append] at hx
    rcases hx with hx | hx
    · exact jsonText_lt128 v x hx
    · exact jsonTextItemsTail_lt128 rest x hx

theorem jsonTextItemsTail_lt128 : ∀ a : JsArr, ∀ x ∈ jsonTextItemsTail a, x < 128
  | .anil => by simp [jsonTextItemsTail]
  | .acons v rest => by
    intro x hx
    simp only [jsonTextItemsTail, List.mem_cons, List.mem_append] at hx
    rcases hx with rfl | hx | hx
    · omega
    · exact jsonText_lt128 v x hx
    · exact jsonTextItemsTail_lt128 rest x hx

theorem jsonTextMembers_lt128 : ∀ o : JsObj, ∀ x ∈ jsonTextMembers o, x < 128
  | .onil => by simp [jsonTextMembers]
  | .ocons k v rest => by
    intro x hx
    simp only [jsonTextMembers, List.mem_cons, List.mem_append] at hx
    rcases hx with hx | rfl | hx | hx
    · exact strLitUnits_lt128 k x hx
    · omega
    · exact jsonText_lt128 v x hx
    · exact jsonTextMembersTail_lt128 rest x hx

theorem jsonTextMembersTail_lt128 :
    ∀ o : JsObj, ∀ x ∈ jsonTextMembersTail o, x < 128
  | .onil => by simp [jsonTextMembersTail]
  | .ocons k v rest => by
    intro x hx
    simp only [jsonTextMembersTail, List.mem_cons, List.mem_append] at hx
    rcases hx with rfl | hx | rfl | hx | hx
    · omega
    · exact strLitUnits_lt128 k x hx
    · omega
    · exact jsonText_lt128 v x hx
    · exact jsonTextMembersTail_lt128 rest x hx
end

/-! ## UTF-8 is the identity on ASCII bytes -/

theorem utf8DecodeGo_ascii :
    ∀ (fuel : Nat) (bytes : List Nat), bytes.length ≤ fuel →
      (∀ b ∈ bytes, b < 128) → utf8DecodeGo fuel bytes = bytes
  | 0, [] => fun _ _ => rfl
  | 0, b :: rest => fun h _ => by simp at h
  | fuel + 1, [] => fun _ _ => rfl
  | fuel + 1, b :: rest => fun hlen hb => by
    have h1 : b < 128 := hb b (by simp)
    have ih := utf8DecodeGo_ascii fuel rest (by simpa using hlen)
      (fun x hx => hb x (by simp [hx]))
    simp [utf8DecodeGo, h1, ih]

theorem utf8Decode_ascii (bytes : List Nat) (hb : ∀ b ∈ bytes, b < 128) :
    utf8Decode bytes = bytes :=
  utf8DecodeGo_ascii bytes.length bytes le_rfl hb

/-! ## Decimal rendering inverts the digit reader -/

theorem natDigitsGo_append : ∀ (fuel n : Nat) (acc : List Nat),
    natDigitsGo fuel n acc = natDigitsGo fuel n [] ++ acc
  | 0, n, acc => by simp [natDigitsGo]
  | fuel + 1, n, acc => by
    by_cases h : n < 10
    · simp [natDigitsGo, h]
    · simp only [natDigitsGo, if_neg h]
      rw [natDigitsGo_append fuel (n / 10) ((48 + n % 10) :: acc),
          natDigitsGo_append fuel (n / 10) [48 + n % 10]]
      simp

theorem natDigitsGo_digits : ∀ (fuel n : Nat),
    ∀ x ∈ natDigitsGo fuel n [], isDigitUnit x = true
  | 0, n => by
    intro x hx
    simp only [natDigitsGo, List.mem_singleton] at hx
    subst hx
    simp only [isDigitUnit, Bool.and_eq_true, decide_eq_true_eq]
    omega
  | fuel + 1, n => by
    intro x hx
    by_cases h : n < 10
    · simp only [natDigitsGo, if_pos h, List.mem_singleton] at hx
      subst hx
      simp only [isDigitUnit, Bool.and_eq_true, decide_eq_true_eq]
      omega
    · simp only [natDigitsGo, if_neg h] at hx
      rw [natDigitsGo_append] at hx
      rcases List.mem_append.mp hx with hx | hx
      · exact natDigitsGo_digits fuel (n / 10) x hx
      · simp only [List.mem_singleton] at hx
        subst hx
        simp only [isDigitUnit, Bool.and_eq_true, decide_eq_true_eq]
        omega

theorem natDigitsGo_ne_nil (fuel n : Nat) : natDigitsGo fuel n [] ≠ [] := by
  cases fuel with
  | zero => simp [natDigitsGo]
  | succ f =>
    by_cases h : n < 10
    · simp [natDigitsGo, h]
    · simp only [natDigitsGo, if_neg h]
      rw [natDigitsGo_append]
      simp

theorem natDigitsGo_val : ∀ (fuel n : Nat), n ≤ fuel →
    digitsVal (natDigitsGo fuel n []) = n
  | 0, n => fun h => by
    have hn : n = 0 := by omega
    subst hn
    decide
  | fuel + 1, n => fun h => by
    by_cases h10 : n < 10
    · simp only [natDigitsGo, if_pos h10, digitsVal, List.foldl_cons,
        List.foldl_nil]
      omega
    · simp only [natDigitsGo, if_neg h10]
      rw [natDigitsGo_append]
      have hval := natDigitsGo_val fuel (n / 10) (by omega)
      simp only [digitsVal, List.foldl_append, List.foldl_cons,
        List.foldl_nil] at hval ⊢
      rw [hval]
      omega

theorem natDigits_cons (n : Nat) :
    ∃ c t, natDigits n = c :: t ∧ isDigitUnit c = true := by
  cases h : natDigits n with
  | nil => exact absurd h (natDigitsGo_ne_nil n n)
  | cons c t =>
    refine ⟨c, t, rfl, natDigitsGo_digits n n c ?_⟩
    rw [show natDigitsGo n n [] = natDigits n from rfl, h]
    simp

theorem digitsVal_natDigits (n : Nat) : digitsVal (natDigits n) = n :=
  natDigitsGo_val n n le_rfl

/-! ## The digit reader -/

theorem takeDigits_cons_not {u : Nat} {t : JStr} (h : isDigitUnit u = false) :
    takeDigits (u :: t) = ([], u :: t) := by
  simp [takeDigits, h]

theorem valEnd_not_digit {u : Nat} {t : JStr} (h : valEnd (u :: t) = true) :
    isDigitUnit u = false ∧ u ≠ 46 ∧ u ≠ 101 ∧ u ≠ 69 ∧ u ≠ 45 := by
  simp only [valEnd, Bool.or_eq_true, decide_eq_true_eq] at h
  rcases h with (rfl | rfl) | rfl <;> simp [isDigitUnit]

theorem valEnd_takeDigits {r : JStr} (h : valEnd r = true) :
    takeDigits r = ([], r) := by
  cases r with
  | nil => rfl
  | cons u t => exact takeDigits_cons_not (valEnd_not_digit h).1

theorem takeDigits_append :
    ∀ ds : JStr, (∀ c ∈ ds, isDigitUnit c = true) →
      ∀ rest : JStr, takeDigits rest = ([], rest) →
        takeDigits (ds ++ rest) = (ds, rest)
  | [], _ => fun rest hrest => by simpa using hrest
  | c :: t, hds => fun rest hrest => by
    have hc : isDigitUnit c = true := hds c (by simp)
    have ht := takeDigits_append t (fun x hx => hds x (by simp [hx])) rest hrest
    simp [takeDigits, hc, ht]

/-! ## The number token inverts the integer rendering -/

theorem valEnd_headIs {r : JStr} (h : valEnd r = true) :
    headIs 46 r = false ∧ headIs 101 r = false ∧ headIs 69 r = false := by
  cases r with
  | nil => simp [headIs]
  | cons u t =>
    obtain ⟨-, h46, h101, h69, -⟩ := valEnd_not_digit h
    simp [headIs, h46, h101, h69]

theorem parseNumTok_intUnits (n : Int) (rest : JStr) (hrest : valEnd rest = true) :
    parseNumTok (intUnits n ++ rest) = some (n, rest) := by
  obtain ⟨c, t, hnd, hc⟩ := natDigits_cons n.natAbs
  have htake : takeDigits (natDigits n.natAbs ++ rest)
      = (natDigits n.natAbs, rest) :=
    takeDigits_append _ (natDigitsGo_digits _ _) rest (valEnd_takeDigits hrest)
  have hval : digitsVal (natDigits n.natAbs) = n.natAbs := digitsVal_natDigits _
  obtain ⟨he46, he101, he69⟩ := valEnd_headIs hrest
  by_cases hneg : n < 0
  · have harg : intUnits n ++ rest = 45 :: (natDigits n.natAbs ++ rest) := by
      simp [intUnits, hneg]
    have hh45 : headIs 45 (45 :: (natDigits n.natAbs ++ rest)) = true := by
      simp [headIs]
    rw [harg]
    simp only [parseNumTok, hh45, if_true, List.tail_cons]
    rw [htake, hnd]
    simp only [he46, he101, he69, Bool.or_self, Bool.or_false,
      Bool.false_eq_true, if_false]
    rw [← hnd, hval]
    simp only [Option.some.injEq, Prod.mk.injEq, and_true]
    omega
  · have harg : intUnits n ++ rest = natDigits n.natAbs ++ rest := by
      simp [intUnits, hneg]
    have hc45 : c ≠ 45 := by
      simp only [isDigitUnit, Bool.and_eq_true, decide_eq_true_eq] at hc
      omega
    have hhead : headIs 45 (natDigits n.natAbs ++ rest) = false := by
      rw [hnd, List.cons_append]
      simp [headIs, hc45]
    rw [harg]
    simp only [parseNumTok, hhead, Bool.false_eq_true, if_false]
    rw [htake, hnd]
    simp only [he46, he101, he69, Bool.or_self, Bool.or_false,
      Bool.false_eq_true, if_false]
    rw [← hnd, hval]
    simp only [Option.some.injEq, Prod.mk.injEq, and_true]
    omega

/-! ## The string-literal reader inverts the escape-everything rendering -/

theorem hexVal_hexUnit : ∀ k < 16, hexVal (hexUnit k) = some k := by
  decide

theorem parseStrAux_escape (u : Nat) (hu : u < 65536) (acc rest : JStr) :
    parseStrAux acc (escapeUnit u ++ rest) = parseStrAux (u :: acc) rest := by
  have h16 : ∀ k : Nat, k % 16 < 16 := fun k => Nat.mod_lt _ (by omega)
  simp only [escapeUnit, List.cons_append, List.nil_append]
  simp only [parseStrAux, hexVal_hexUnit _ (h16 _)]
  have harith : ((u / 4096 % 16 * 16 + u / 256 % 16) * 16 + u / 16 % 16) * 16
      + u % 16 = u := by omega
  rw [harith]

theorem parseStrAux_escAll :
    ∀ s : JStr, (∀ u ∈ s, u < 65536) → ∀ acc rest : JStr,
      parseStrAux acc (s.flatMap escapeUnit ++ 34 :: rest)
        = some (acc.reverse ++ s, rest)
  | [] => fun _ acc rest => by simp [parseStrAux]
  | u :: s2 => fun h acc rest => by
    have hu : u < 65536 := h u (by simp)
    rw [List.flatMap_cons, List.append_assoc, parseStrAux_escape u hu,
      parseStrAux_escAll s2 (fun x hx => h x (by simp [hx])) (u :: acc) rest]
    simp

theorem parseStrLit_roundtrip (s : JStr) (h : ∀ u ∈ s, u < 65536)
    (rest : JStr) :
    parseStrAux [] (s.flatMap escapeUnit ++ 34 :: rest) = some (s, rest) := by
  simpa using parseStrAux_escAll s h [] rest

/-! ## Rendered values never begin with whitespace or a closer -/

theorem jsonText_head (v : JsValue) :
    ∃ c t, jsonText v = c :: t ∧ isWsUnit c = false
      ∧ c ≠ 93 ∧ c ≠ 125 ∧ c ≠ 44 := by
  cases v with
  | jnull => exact ⟨110, _, rfl, by decide, by decide, by decide, by decide⟩
  | jbool b =>
    cases b with
    | true => exact ⟨116, _, rfl, by decide, by decide, by decide, by decide⟩
    | false => exact ⟨102, _, rfl, by decide, by decide, by decide, by decide⟩
  | jstr s => exact ⟨34, _, rfl, by decide, by decide, by decide, by decide⟩
  | jarr a => exact ⟨91, _, rfl, by decide, by decide, by decide, by decide⟩
  | jobj o => exact ⟨123, _, rfl, by decide, by decide, by decide, by decide⟩
  | jnum n =>
    by_cases hn : n < 0
    · refine ⟨45, natDigits n.natAbs, ?_, by decide, by decide, by decide,
        by decide⟩
      simp [jsonText, intUnits, hn]
    · obtain ⟨c, t, hnd, hc⟩ := natDigits_cons n.natAbs
      have hct : jsonText (.jnum n) = c :: t := by
        simp [jsonText, intUnits, hn, hnd]
      simp only [isDigitUnit, Bool.and_eq_true, decide_eq_true_eq] at hc
      refine ⟨c, t, hct, ?_, by omega, by omega, by omega⟩
      simp only [isWsUnit, Bool.or_eq_false_iff, decide_eq_false_iff_not]
      omega

theorem skipWs_not_ws {u : Nat} {t : JStr} (h : isWsUnit u = false) :
    skipWs (u :: t) = u :: t := by
  simp [skipWs, h]

theorem skipWs_jsonText (v : JsValue) (x : JStr) :
    skipWs (jsonText v ++ x) = jsonText v ++ x := by
  obtain ⟨c, t, hv, hws, -, -, -⟩ := jsonText_head v
  rw [hv, List.cons_append, skipWs_not_ws hws]

/-! ## Reduction steps of the parser (definitional) -/

theorem parseVal_arr_step (f : Nat) (X : JStr) :
    parseVal (f + 1) (91 :: X)
      = if headIs 93 (skipWs X) then some (.jarr .anil, (skipWs X).tail)
        else match parseItems f (skipWs X) with
          | some (items, r3) => some (.jarr items, r3)
          | none => none := rfl

theorem parseVal_obj_step (f : Nat) (X : JStr) :
    parseVal (f + 1) (123 :: X)
      = if headIs 125 (skipWs X) then some (.jobj .onil, (skipWs X).tail)
        else match parseMembers f (skipWs X) with
          | some (ms, r3) => some (.jobj ms, r3)
          | none => none := rfl

theorem parseVal_num_step (f : Nat) (X : JStr) :
    parseVal (f + 1) (45 :: X)
      = match parseNumTok (45 :: X) with
        | some (n, r2) => some (.jnum n, r2)
        | none => none := rfl

theorem parseItems_step (f : Nat) (s : JStr) :
    parseItems (f + 1) s
      = match parseVal f s with
        | none => none
        | some (v, r) =>
          if headIs 44 (skipWs r) then
            match parseItems f (skipWs (skipWs r).tail) with
            | some (items, r3) => some (.acons v items, r3)
            | none => none
          else if headIs 93 (skipWs r) then some (.acons v .anil, (skipWs r).tail)
          else none := rfl

theorem parseMembers_step (f : Nat) (k : JStr) (X : JStr) :
    parseMembers (f + 1) (34 :: (k.flatMap escapeUnit ++ 34 :: X))
      = match parseStrAux [] (k.flatMap escapeUnit ++ 34 :: X) with
        | none => none
        | some (key, r1) =>
          if headIs 58 (skipWs r1) then
            match parseVal f (skipWs ((skipWs r1).tail)) with
            | none => none
            | some (v, r3) =>
              if headIs 44 (skipWs r3) then
                match parseMembers f (skipWs (skipWs r3).tail) with
                | some (ms, r5) => some (.ocons key v ms, r5)
                | none => none
              else if headIs 125 (skipWs r3) then
                some (.ocons key v .onil, (skipWs r3).tail)
              else none
          else none := rfl

/-! ## Well-formedness decompositions -/

theorem wfArr_cons {v : JsValue} {a : JsArr} (h : wfArr (.acons v a) = true) :
    wfVal v = true ∧ wfArr a = true := by
  simpa [wfArr, Bool.and_eq_true] using h

theorem wfObj_cons {k : JStr} {v : JsValue} {o : JsObj}
    (h : wfObj (.ocons k v o) = true) :
    (∀ u ∈ k, u < 65536) ∧ wfVal v = true ∧ wfObj o = true := by
  simp only [wfObj, Bool.and_eq_true] at h
  obtain ⟨⟨⟨hk, -⟩, hv⟩, ho⟩ := h
  refine ⟨?_, hv, ho⟩
  intro u hu
  simp only [List.all_eq_true, decide_eq_true_eq] at hk
  exact hk u hu

theorem wfVal_str {s : JStr} (h : wfVal (.jstr s) = true) :
    ∀ u ∈ s, u < 65536 := by
  simp only [wfVal, List.all_eq_true, decide_eq_true_eq] at h
  exact h

theorem headIs_cons_ne {u c : Nat} {t : JStr} (h : c ≠ u) :
    headIs u (c :: t) = false := by
  simp [headIs, h]

theorem valEnd_membersTail (o : JsObj) (rest : JStr) :
    valEnd (jsonTextMembersTail o ++ 125 :: rest) = true := by
  cases o <;> rfl

theorem valEnd_itemsTail (a : JsArr) (rest : JStr) :
    valEnd (jsonTextItemsTail a ++ 93 :: rest) = true := by
  cases a <;> rfl

/-! ## The parser inverts the canonical rendering -/

mutual
theorem rt_val : ∀ (v : JsValue) (fuel : Nat) (rest : JStr),
    wfVal v = true → (jsonText v).length < fuel → valEnd rest = true →
    parseVal fuel (jsonText v ++ rest) = some (v, rest)
  | .jnull, fuel, rest => fun _ hf _ => by
    cases fuel with
    | zero => exact absurd hf (by omega)
    | succ f => rfl
  | .jbool true, fuel, rest => fun _ hf _ => by
    cases fuel with
    | zero => exact absurd hf (by omega)
    | succ f => rfl
  | .jbool false, fuel, rest => fun _ hf _ => by
    cases fuel with
    | zero => exact absurd hf (by omega)
    | succ f => rfl
  | .jstr s, fuel, rest => fun hwf hf _ => by
    cases fuel with
    | zero => exact absurd hf (by omega)
    | succ f =>
      have hs := wfVal_str hwf
      have harg : jsonText (.jstr s) ++ rest
          = 34 :: (s.flatMap escapeUnit ++ 34 :: rest) := by
        simp [jsonText, strLitUnits]
      rw [harg]
      have hred : parseVal (f + 1) (34 :: (s.flatMap escapeUnit ++ 34 :: rest))
          = match parseStrAux [] (s.flatMap escapeUnit ++ 34 :: rest) with
            | some (cs, r2) => some (.jstr cs, r2)
            | none => none := rfl
      rw [hred, parseStrLit_roundtrip s hs rest]
  | .jnum n, fuel, rest => fun _ hf hrest => by
    cases fuel with
    | zero => exact absurd hf (by omega)
    | succ f =>
      by_cases hn : n < 0
      · have harg : jsonText (.jnum n) ++ rest
            = 45 :: (natDigits n.natAbs ++ rest) := by
          simp [jsonText, intUnits, hn]
        have harg2 : intUnits n ++ rest = 45 :: (natDigits n.natAbs ++ rest) := by
          simp [intUnits, hn]
        rw [harg, parseVal_num_step, ← harg2, parseNumTok_intUnits n rest hrest]
      · obtain ⟨c, t, hnd, hc⟩ := natDigits_cons n.natAbs
        have hcb : 48 ≤ c ∧ c ≤ 57 := by
          simpa [isDigitUnit, Bool.and_eq_true, decide_eq_true_eq] using hc
        have harg : jsonText (.jnum n) ++ rest = c :: (t ++ rest) := by
          simp [jsonText, intUnits, hn, hnd]
        have harg2 : intUnits n ++ rest = c :: (t ++ rest) := by
          simp [intUnits, hn, hnd]
        have hcws : isWsUnit c = false := by
          simp only [isWsUnit, Bool.or_eq_false_iff, decide_eq_false_iff_not]
          omega
        rw [harg]
        simp only [parseVal, skipWs_not_ws hcws]
        rw [if_neg (by omega), if_neg (by omega), if_neg (by omega),
          if_neg (by omega), if_neg (by omega), if_neg (by omega),
          if_pos (by simp [hc])]
        rw [← harg2, parseNumTok_intUnits n rest hrest]
  | .jarr .anil, fuel, rest => fun _ hf _ => by
    cases fuel with
    | zero => exact absurd hf (by omega)
    | succ f => rfl
  | .jarr (.acons v a), fuel, rest => fun hwf hf hrest => by
    cases fuel with
    | zero => exact absurd hf (by omega)
    | succ f =>
      obtain ⟨hv, ha⟩ := wfArr_cons (by simpa [wfVal] using hwf)
      obtain ⟨c, t, hct, hws, h93, -, -⟩ := jsonText_head v
      have harg : jsonText (.jarr (.acons v a)) ++ rest
          = 91 :: (jsonText v ++ (jsonTextItemsTail a ++ 93 :: rest)) := by
        simp [jsonText, jsonTextItems]
      rw [harg, parseVal_arr_step,
        skipWs_jsonText v (jsonTextItemsTail a ++ 93 :: rest)]
      have hh93 : headIs 93 (jsonText v ++ (jsonTextItemsTail a ++ 93 :: rest))
          = false := by
        rw [hct, List.cons_append]
        exact headIs_cons_ne h93
      rw [hh93]
      have hfuel : (jsonText v ++ jsonTextItemsTail a).length + 1 < f := by
        simp only [jsonText, jsonTextItems, List.length_cons,
          List.length_append, List.length_singleton] at hf ⊢
        omega
      rw [if_neg (by simp)]
      rw [rt_items v a f rest hv ha hfuel hrest]
  | .jobj .onil, fuel, rest => fun _ hf _ => by
    cases fuel with
    | zero => exact absurd hf (by omega)
    | succ f => rfl
  | .jobj (.ocons k v o), fuel, rest => fun hwf hf hrest => by
    cases fuel with
    | zero => exact absurd hf (by omega)
    | succ f =>
      obtain ⟨hk, hv, ho⟩ := wfObj_cons (by simpa [wfVal] using hwf)
      have harg : jsonText (.jobj (.ocons k v o)) ++ rest
          = 123 :: (34 :: (k.flatMap escapeUnit
              ++ 34 :: (58 :: (jsonText v
                ++ (jsonTextMembersTail o ++ 125 :: rest))))) := by
        simp [jsonText, jsonTextMembers, strLitUnits]
      rw [harg, parseVal_obj_step]
      have hh125 : headIs 125 (skipWs (34 :: (k.flatMap escapeUnit
          ++ 34 :: (58 :: (jsonText v
            ++ (jsonTextMembersTail o ++ 125 :: rest)))))) = false := rfl
      rw [hh125, if_neg (by simp)]
      have hskip : skipWs (34 :: (k.flatMap escapeUnit
          ++ 34 :: (58 :: (jsonText v ++ (jsonTextMembersTail o ++ 125 :: rest)))))
          = 34 :: (k.flatMap escapeUnit
              ++ 34 :: (58 :: (jsonText v
                ++ (jsonTextMembersTail o ++ 125 :: rest)))) := rfl
      rw [hskip]
      have hfuel : (strLitUnits k ++ 58 :: (jsonText v
          ++ jsonTextMembersTail o)).length + 1 < f := by
        simp only [jsonText, jsonTextMembers, strLitUnits, List.length_cons,
          List.length_append, List.length_singleton] at hf ⊢
        omega
      rw [rt_members k v o f rest hk hv ho hfuel hrest]
  termination_by v _ _ => sizeOf v

theorem rt_items : ∀ (v : JsValue) (a : JsArr) (fuel : Nat) (rest : JStr),
    wfVal v = true → wfArr a = true →
    (jsonText v ++ jsonTextItemsTail a).length + 1 < fuel →
    valEnd rest = true →
    parseItems fuel (jsonText v ++ (jsonTextItemsTail a ++ 93 :: rest))
      = some (.acons v a, rest)
  | v, .anil, fuel, rest => fun hv _ hfuel hrest => by
    cases fuel with
    | zero => exact absurd hfuel (by omega)
    | succ f =>
      have hval := rt_val v f (93 :: rest) hv (by
        simp only [jsonTextItemsTail, List.append_nil,
          List.length_append] at hfuel
        omega) rfl
      rw [parseItems_step]
      simp only [jsonTextItemsTail, List.nil_append]
      rw [hval]
      rfl
  | v, .acons w a2, fuel, rest => fun hv ha hfuel hrest => by
    cases fuel with
    | zero => exact absurd hfuel (by omega)
    | succ f =>
      obtain ⟨hw, ha2⟩ := wfArr_cons ha
      have harg : jsonTextItemsTail (.acons w a2) ++ 93 :: rest
          = 44 :: (jsonText w ++ (jsonTextItemsTail a2 ++ 93 :: rest)) := by
        simp [jsonTextItemsTail]
      simp only [jsonTextItemsTail, List.length_cons, List.length_append]
        at hfuel
      have hval := rt_val v f
        (44 :: (jsonText w ++ (jsonTextItemsTail a2 ++ 93 :: rest))) hv
        (by omega) rfl
      have hih := rt_items w a2 f rest hw ha2 (by
        simp only [List.length_append]
        omega) hrest
      have hskip : skipWs (jsonText w ++ (jsonTextItemsTail a2 ++ 93 :: rest))
          = jsonText w ++ (jsonTextItemsTail a2 ++ 93 :: rest) :=
        skipWs_jsonText w _
      rw [parseItems_step, harg, hval]
      simp only [skipWs, isWsUnit, headIs, List.tail_cons, hih, hskip]
      simp [hskip, hih]
  termination_by v a _ _ => sizeOf v + sizeOf a

theorem rt_members : ∀ (k : JStr) (v : JsValue) (o : JsObj) (fuel : Nat)
    (rest : JStr),
    (∀ u ∈ k, u < 65536) → wfVal v = true → wfObj o = true →
    (strLitUnits k ++ 58 :: (jsonText v
        ++ jsonTextMembersTail o)).length + 1 < fuel →
    valEnd rest = true →
    parseMembers fuel (34 :: (k.flatMap escapeUnit
        ++ 34 :: (58 :: (jsonText v ++ (jsonTextMembersTail o ++ 125 :: rest)))))
      = some (.ocons k v o, rest)
  | k, v, .onil, fuel, rest => fun hk hv _ hfuel hrest => by
    cases fuel with
    | zero => exact absurd hfuel (by omega)
    | succ f =>
      have hval := rt_val v f (125 :: rest) hv (by
        simp only [strLitUnits, jsonTextMembersTail, List.append_nil,
          List.length_append, List.length_cons] at hfuel
        omega) rfl
      rw [parseMembers_step,
        parseStrLit_roundtrip k hk
          (58 :: (jsonText v ++ (jsonTextMembersTail .onil ++ 125 :: rest)))]
      simp only [jsonTextMembersTail, List.nil_append]
      have hh58 : headIs 58 (skipWs (58 :: (jsonText v ++ 125 :: rest)))
          = true := rfl
      rw [hh58, if_pos rfl]
      have hred : skipWs ((skipWs (58 :: (jsonText v ++ 125 :: rest))).tail)
          = jsonText v ++ 125 :: rest := by
        rw [show skipWs (58 :: (jsonText v ++ 125 :: rest))
            = 58 :: (jsonText v ++ 125 :: rest) from rfl,
          List.tail_cons]
        exact skipWs_jsonText v (125 :: rest)
      rw [hred, hval]
      rfl
  | k, v, .ocons k2 v2 o2, fuel, rest => fun hk hv ho hfuel hrest => by
    cases fuel with
    | zero => exact absurd hfuel (by omega)
    | succ f =>
      obtain ⟨hk2, hv2, ho2⟩ := wfObj_cons ho
      simp only [strLitUnits, jsonTextMembersTail, List.length_cons,
        List.length_append] at hfuel
      have hval := rt_val v f
        (jsonTextMembersTail (.ocons k2 v2 o2) ++ 125 :: rest) hv
        (by omega) (valEnd_membersTail _ _)
      have hskipv : skipWs (jsonText v
          ++ (jsonTextMembersTail (.ocons k2 v2 o2) ++ 125 :: rest))
          = jsonText v ++ (jsonTextMembersTail (.ocons k2 v2 o2)
              ++ 125 :: rest) :=
        skipWs_jsonText v _
      have hih := rt_members k2 v2 o2 f rest hk2 hv2 ho2 (by
        simp only [strLitUnits, List.length_cons, List.length_append]
        omega) hrest
      rw [parseMembers_step, parseStrLit_roundtrip k hk
        (58 :: (jsonText v
          ++ (jsonTextMembersTail (.ocons k2 v2 o2) ++ 125 :: rest)))]
      show ((match parseVal f (skipWs (jsonText v
            ++ (jsonTextMembersTail (JsObj.ocons k2 v2 o2) ++ 125 :: rest))) with
          | none => none
          | some (v3, r3) =>
            if headIs 44 (skipWs r3) = true then
              match parseMembers f (skipWs (skipWs r3).tail) with
              | some (ms, r5) => some (JsObj.ocons k v3 ms, r5)
              | none => none
            else if headIs 125 (skipWs r3) = true then
              some (JsObj.ocons k v3 JsObj.onil, (skipWs r3).tail)
            else none : Option (JsObj × JStr))
          = some (JsObj.ocons k v (JsObj.ocons k2 v2 o2), rest))
      rw [hskipv, hval]
      show ((match parseMembers f (skipWs ((skipWs
            (jsonTextMembersTail (JsObj.ocons k2 v2 o2) ++ 125 :: rest)).tail)) with
          | some (ms, r5) => some (JsObj.ocons k v ms, r5)
          | none => none : Option (JsObj × JStr))
          = some (JsObj.ocons k v (JsObj.ocons k2 v2 o2), rest))
      have hargm : skipWs ((skipWs (jsonTextMembersTail (JsObj.ocons k2 v2 o2)
            ++ 125 :: rest)).tail)
          = 34 :: (k2.flatMap escapeUnit ++ 34 :: (58 :: (jsonText v2
              ++ (jsonTextMembersTail o2 ++ 125 :: rest)))) := by
        simp [jsonTextMembersTail, strLitUnits, skipWs, isWsUnit]
      rw [hargm, hih]
  termination_by k v o _ _ => sizeOf v + sizeOf o
end

/-- JSON.parse of the canonical rendering recovers the value. -/
theorem jsonParse_jsonText (v : JsValue) (h : wfVal v = true) :
    jsonParse (jsonText v) = some v := by
  have hrt := rt_val v ((jsonText v).length + 1) [] h (by omega) rfl
  rw [List.append_nil] at hrt
  simp [jsonParse, hrt, skipWs]

/-- Claims extraction recovers any value packed as the middle segment of
a three-segment dotted credential (dot-free header and signature). -/
theorem extractClaims_roundtrip (header sig : JStr) (v : JsValue)
    (hh : ∀ u ∈ header, u ≠ 46) (hs : ∀ u ∈ sig, u ≠ 46)
    (hwf : wfVal v = true) :
    extractClaims (header ++ 46 :: (b64urlEncode (jsonText v) ++ 46 :: sig))
      = some v := by
  have hp : ∀ p ∈ tokenPrefixes, 46 ∉ p := by decide
  obtain ⟨h2, hh2, hstrip⟩ := stripMarkerList_dotted tokenPrefixes header
    (b64urlEncode (jsonText v) ++ 46 :: sig) hp hh
  have hpay : ∀ u ∈ b64urlEncode (jsonText v), u ≠ 46 := b64urlEncode_no_dot _
  have hsplit : splitOnDot (h2 ++ 46 :: (b64urlEncode (jsonText v)
      ++ 46 :: sig)) = [h2, b64urlEncode (jsonText v), sig] := by
    rw [splitOnDot_append h2 _ hh2, splitOnDot_append _ sig hpay,
      splitOnDot_no_dot sig hs]
  have hbytes : ∀ x ∈ jsonText v, x < 256 := fun x hx => by
    have := jsonText_lt128 v x hx
    omega
  simp only [extractClaims, stripTokenPrefix]
  rw [hstrip, hsplit]
  simp only [List.length_cons, List.length_nil, List.get?]
  rw [if_pos trivial]
  simp only [Option.getD_some]
  rw [b64_roundtrip (jsonText v) hbytes, utf8Decode_ascii _ (jsonText_lt128 v)]
  exact jsonParse_jsonText v hwf

/-- C5: a token source constructed with a bearer credential and no session
credential returns exactly the stored bearer credential for all values of
minDuration and force, with no Issuer Channel call, no cache read and no
cache write. -/
theorem c5_bearer_passthrough (b : JStr) (cd : Option JStr) (d : Int)
    (force : Bool) (w : World) :
    issueToken ⟨some b, none, cd⟩ d force w = ⟨.ok b, [], false, []⟩ := rfl

/-- C10: loadWorkloadToken keeps only the bearer credential - the session
credential and the cache directory are discarded - so every issueToken
call on the resulting source returns the file's bearer credential with no
session exchange, even when the file also holds a session credential. -/
theorem c10_workload_bearer_only (b dir : JStr) (stok : Option JStr)
    (d : Int) (force : Bool) (w : World) :
    loadWorkloadToken ⟨some b, stok⟩ dir = some ⟨some b, none, none⟩
    ∧ issueToken ⟨some b, none, none⟩ d force w = ⟨.ok b, [], false, []⟩ :=
  ⟨rfl, rfl⟩

/-- C6: on a session-backed source, when force is true or the process-wide
force-refresh debug flag is set, issueToken invokes the Issuer Channel
(one request, for minDuration milliseconds) and never reads the cache
file, whatever the cache holds. -/
theorem c6_force_skips_cache (bt : Option JStr) (st : JStr)
    (cd : Option JStr) (d : Int) (force : Bool) (w : World)
    (hforce : (force || w.forceFlag) = true) :
    (issueToken ⟨bt, some st, cd⟩ d force w).requested = [d]
    ∧ (issueToken ⟨bt, some st, cd⟩ d force w).cacheReadAttempted = false := by
  cases hi : w.issuer <;>
    simp [issueToken, issueFromSession, hforce, hi]

/-- C6 witness: a forced call on a source whose cache holds a currently
valid credential for the same tenant still issues remotely and does not
read the cache. -/
theorem c6_force_skips_cache_witness :
    (issueToken ⟨none, some exSessionTok, some [99]⟩ 500 true
        ⟨0, false, some exSessionTok, some [110], true⟩).requested = [500]
    ∧ (issueToken ⟨none, some exSessionTok, some [99]⟩ 500 true
        ⟨0, false, some exSessionTok, some [110], true⟩).cacheReadAttempted = false :=
  c6_force_skips_cache none exSessionTok (some [99]) 500 true
    ⟨0, false, some exSessionTok, some [110], true⟩ rfl

/-- C2 counterexample: a forced session-backed issuance reaches the
Issuer Channel and requests minDuration itself (1000 ms here), not
min(minDuration * 2, 3600000) = 2000 ms as the claim states for every
issuance that reaches the channel. -/
theorem c2_counterexample :
    (issueToken ⟨none, some [115], none⟩ 1000 true
        ⟨0, false, none, some [110], true⟩).res = .ok [110]
    ∧ (issueToken ⟨none, some [115], none⟩ 1000 true
        ⟨0, false, none, some [110], true⟩).requested = [1000]
    ∧ (1000 : Int) ≠ (if (1000 : Int) * 2 > 3600000 then 3600000 else 1000 * 2) := by
  refine ⟨rfl, rfl, ?_⟩
  decide

/-- C2 amended: every duration requested from the Issuer Channel during
issueToken equals minDuration when effective force is set, and
min(minDuration * 2, 3600000) milliseconds otherwise (the doubling and
the one-hour cap apply only to the unforced cache-miss path). -/
theorem c2_requested_durations (t : LoadedToken) (d : Int) (force : Bool)
    (w : World) :
    ∀ r ∈ (issueToken t d force w).requested,
      r = if (force || w.forceFlag) = true then d
          else if d * 2 > 3600000 then 3600000 else d * 2 := by
  intro r hr
  obtain ⟨bt, stok, cd⟩ := t
  cases stok with
  | none =>
    cases bt <;> simp [issueToken] at hr
  | some st =>
    simp only [issueToken, issueFromSession] at hr
    by_cases hf : (force || w.forceFlag) = true
    · cases hi : w.issuer <;> simp [hf, hi] at hr <;> simp [hf, hr]
    · rw [Bool.not_eq_true] at hf
      simp only [hf, Bool.false_eq_true, if_false] at hr ⊢
      cases hsc : extractClaims st with
      | none => simp [hsc] at hr
      | some sc =>
        simp only [hsc] at hr
        cases hhit : cacheProbe cd w.cacheRead sc w.now d with
        | some contents => simp [hhit] at hr
        | none =>
          simp only [hhit] at hr
          cases hi : w.issuer <;> simp [hi] at hr <;> simp [hr]

set_option maxRecDepth 100000 in
/-- C2 amended witness: an unforced cache-miss issuance with minDuration
1000 ms requests 2000 ms. -/
theorem c2_requested_durations_witness :
    (2000 : Int) = if (false || false) = true then 1000
        else if (1000 : Int) * 2 > 3600000 then 3600000 else 1000 * 2 :=
  c2_requested_durations ⟨none, some exSessionTok, none⟩ 1000 false
    ⟨0, false, none, some [110], true⟩ 2000 (by decide)

/-- C3 counterexample: a session credential whose claims cannot be
decoded still issues successfully when force is true - the force check
precedes the claims check, so no claims-decoding error is raised, against
the claim's for-every-force clause. -/
theorem c3_counterexample :
    extractClaims [120] = none
    ∧ (issueToken ⟨none, some [120], none⟩ 5 true
        ⟨0, false, none, some [110], true⟩).res = .ok [110] :=
  ⟨rfl, rfl⟩

/-- C3 amended: when effective force is false (force argument false and
debug flag unset), a session-backed issuance whose session credential's
claims cannot be decoded fails with the claims-decoding error, for every
minDuration; a forced call skips this check. -/
theorem c3_claims_error_unforced (bt : Option JStr) (st : JStr)
    (cd : Option JStr) (d : Int) (w : World)
    (hflag : w.forceFlag = false) (hclaims : extractClaims st = none) :
    (issueToken ⟨bt, some st, cd⟩ d false w).res = .error .claimsError := by
  simp [issueToken, issueFromSession, hflag, hclaims]

/-- C3 amended witness: an undecodable session credential with effective
force false fails with the claims error at minDuration 7. -/
theorem c3_claims_error_unforced_witness :
    (issueToken ⟨none, some [120], none⟩ 7 false
        ⟨0, false, none, some [110], true⟩).res = .error .claimsError :=
  c3_claims_error_unforced none [120] none 7
    ⟨0, false, none, some [110], true⟩ rfl rfl

/-- C1: on a session-backed source with a cache directory, unforced and
with the debug flag unset, when the cache file reads back and both the
session's and the cached credential's claims decode, the cached
credential is returned with no Issuer Channel call exactly when its
tenant_id claim equals the session's tenant_id claim and its exp claim
times 1000 strictly exceeds now plus minDuration; otherwise a fresh
credential is requested remotely (for min(minDuration * 2, 3600000) ms). -/
theorem c1_cached_iff (bt : Option JStr) (st cd contents : JStr)
    (sc cc : JsValue) (d : Int) (w : World)
    (hflag : w.forceFlag = false)
    (hsc : extractClaims st = some sc)
    (hread : w.cacheRead = some contents)
    (hcc : extractClaims contents = some cc) :
    (((issueToken ⟨bt, some st, some cd⟩ d false w).res = .ok contents
        ∧ (issueToken ⟨bt, some st, some cd⟩ d false w).requested = [])
      ↔ (jget cc tenantKey = jget sc tenantKey
          ∧ expOrZero cc * 1000 > w.now + d))
    ∧ (¬(jget cc tenantKey = jget sc tenantKey
          ∧ expOrZero cc * 1000 > w.now + d)
        → (issueToken ⟨bt, some st, some cd⟩ d false w).requested
            = [if d * 2 > 3600000 then 3600000 else d * 2]) := by
  by_cases hcond : (jget cc tenantKey = jget sc tenantKey
      ∧ expOrZero cc * 1000 > w.now + d)
  · have hprobe : cacheProbe (some cd) w.cacheRead sc w.now d = some contents := by
      simp [cacheProbe, hread, hcc, hcond]
    have hout : issueToken ⟨bt, some st, some cd⟩ d false w
        = ⟨.ok contents, [], true, []⟩ := by
      simp [issueToken, issueFromSession, hflag, hsc, hprobe]
    rw [hout]
    exact ⟨by simpa using hcond, fun hn => absurd hcond hn⟩
  · have hprobe : cacheProbe (some cd) w.cacheRead sc w.now d = none := by
      simp [cacheProbe, hread, hcc, hcond]
    cases hi : w.issuer with
    | none =>
      have hout : issueToken ⟨bt, some st, some cd⟩ d false w
          = ⟨.error .issuance, [if d * 2 > 3600000 then 3600000 else d * 2],
             true, []⟩ := by
        simp [issueToken, issueFromSession, hflag, hsc, hprobe, hi]
      rw [hout]
      exact ⟨by simp [hcond], fun _ => rfl⟩
    | some tok =>
      have hout : issueToken ⟨bt, some st, some cd⟩ d false w
          = ⟨.ok tok, [if d * 2 > 3600000 then 3600000 else d * 2],
             true, [(tok, 0o600)]⟩ := by
        simp [issueToken, issueFromSession, hflag, hsc, hprobe, hi]
      rw [hout]
      exact ⟨by simp [hcond], fun _ => rfl⟩

set_option maxRecDepth 100000 in
/-- C1 witness: a fresh cached credential (exp 2 s, tenant t1) matching
the session's tenant is returned from the cache at minDuration 500 ms
and now 0. -/
theorem c1_cached_iff_witness :
    (issueToken ⟨none, some exSessionTok, some [99]⟩ 500 false
        ⟨0, false, some exSessionTok, some [110], true⟩).res = .ok exSessionTok := by
  have h := c1_cached_iff none exSessionTok [99] exSessionTok exClaimsObj
    exClaimsObj 500 ⟨0, false, some exSessionTok, some [110], true⟩
    rfl rfl rfl rfl
  exact (h.1.mpr (by decide)).1

/-- C7: cache input-output failures never fail an issuance - a cache-file
read failure, whether the file is missing (or unreadable) or its content
does not parse as a credential, acts exactly as a miss: the Issuer
Channel is consulted with the full doubled-and-capped duration, and the
fresh credential is returned whether or not the following cache write
would succeed (the write outcome `b` ranges over both values). -/
theorem c7_cache_failures_safe (bt : Option JStr) (st cd : JStr)
    (sc : JsValue) (d : Int) (w : World) (tok : JStr) (b : Bool)
    (hflag : w.forceFlag = false)
    (hsc : extractClaims st = some sc)
    (hread : w.cacheRead = none
      ∨ ∃ contents, w.cacheRead = some contents
          ∧ extractClaims contents = none)
    (hissuer : w.issuer = some tok) :
    (issueToken ⟨bt, some st, some cd⟩ d false
        {w with cacheWriteOk := b}).res = .ok tok
    ∧ (issueToken ⟨bt, some st, some cd⟩ d false
        {w with cacheWriteOk := b}).requested
        = [if d * 2 > 3600000 then 3600000 else d * 2] := by
  have hprobe : cacheProbe (some cd) ({w with cacheWriteOk := b}).cacheRead
      sc ({w with cacheWriteOk := b}).now d = none := by
    rcases hread with hread | ⟨contents, hread, hjunk⟩
    · simp [cacheProbe, hread]
    · simp [cacheProbe, hread, hjunk]
  constructor <;>
    simp [issueToken, issueFromSession, hflag, hsc, hprobe, hissuer]

set_option maxRecDepth 100000 in
/-- C7 witness: the cache file reads back as an unparsable one-unit
string and the write is bound to fail, yet the freshly issued credential
is still returned, at minDuration 500. -/
theorem c7_cache_failures_safe_witness :
    (issueToken ⟨none, some exSessionTok, some [99]⟩ 500 false
        ⟨0, false, some [120], some [110], false⟩).res = .ok [110]
    ∧ (issueToken ⟨none, some exSessionTok, some [99]⟩ 500 false
        ⟨0, false, some [120], some [110], false⟩).requested
        = [if (500 : Int) * 2 > 3600000 then 3600000 else 500 * 2] :=
  c7_cache_failures_safe none exSessionTok [99] exClaimsObj 500
    ⟨0, false, some [120], some [110], true⟩ [110] false rfl rfl
    (Or.inr ⟨[120], rfl, rfl⟩) rfl

set_option maxRecDepth 100000 in
/-- C9 counterexample: a cached credential whose decoded claims lack an
exp field, with matching tenant, unforced: the code treats it as already
expired (exp defaults to 0), issues remotely (2000 ms requested) and does
not return the cached credential, against the claim's never-expiring
reading. -/
theorem c9_counterexample :
    extractClaims exNoExpTok = some exNoExpObj
    ∧ jget exNoExpObj expKey = none
    ∧ (issueToken ⟨none, some exNoExpTok, some [99]⟩ 1000 false
        ⟨0, false, some exNoExpTok, some [110], true⟩).res = .ok [110]
    ∧ (issueToken ⟨none, some exNoExpTok, some [99]⟩ 1000 false
        ⟨0, false, some exNoExpTok, some [110], true⟩).requested = [2000] := by
  refine ⟨by decide, by decide, by decide, by decide⟩

/-- C9 amended: a cached credential whose decoded claims lack an exp
field is treated as expiring at the epoch (exp defaults to 0): whenever
now plus minDuration is nonnegative the cache entry is stale regardless
of tenant, and issuance proceeds to the Issuer Channel with the
doubled-and-capped duration.  (The standalone isTokenExpired helper does
treat a missing exp as never expiring, but the cache freshness check does
not use it.) -/
theorem c9_no_exp_is_stale (bt : Option JStr) (st cd contents : JStr)
    (sc cc : JsValue) (d : Int) (w : World)
    (hflag : w.forceFlag = false)
    (hsc : extractClaims st = some sc)
    (hread : w.cacheRead = some contents)
    (hcc : extractClaims contents = some cc)
    (hexp : jget cc expKey = none)
    (hnow : 0 ≤ w.now + d) :
    (issueToken ⟨bt, some st, some cd⟩ d false w).requested
      = [if d * 2 > 3600000 then 3600000 else d * 2] := by
  have hexp0 : expOrZero cc = 0 := by simp [expOrZero, hexp]
  have hprobe : cacheProbe (some cd) w.cacheRead sc w.now d = none := by
    simp only [cacheProbe, hread, hcc]
    rw [if_neg]
    rintro ⟨-, habs⟩
    rw [hexp0] at habs
    omega
  cases hi : w.issuer <;>
    simp [issueToken, issueFromSession, hflag, hsc, hprobe, hi]

set_option maxRecDepth 100000 in
/-- C9 amended witness: the no-exp cached credential is stale at now 0
and minDuration 1000, so 2000 ms are requested remotely. -/
theorem c9_no_exp_is_stale_witness :
    (issueToken ⟨none, some exNoExpTok, some [99]⟩ 1000 false
        ⟨0, false, some exNoExpTok, some [110], true⟩).requested = [2000] := by
  have h := c9_no_exp_is_stale none exNoExpTok [99] exNoExpTok exNoExpObj
    exNoExpObj 1000 ⟨0, false, some exNoExpTok, some [110], true⟩
    rfl rfl rfl rfl (by decide) (by decide)
  simpa using h

set_option maxRecDepth 100000 in
/-- C4 counterexample: a forced successful exchange with a cache
directory writes nothing at all, and an unforced successful exchange
writes the raw newly issued credential string - here the two-unit string
of n and T, which is not JSON text of any value, let alone of the
token-expiration-tenantId object the claim describes. -/
theorem c4_counterexample :
    (issueToken ⟨none, some [115], some [99]⟩ 5 true
        ⟨0, false, none, some [110, 84], true⟩).res = .ok [110, 84]
    ∧ (issueToken ⟨none, some [115], some [99]⟩ 5 true
        ⟨0, false, none, some [110, 84], true⟩).cacheWrites = []
    ∧ (issueToken ⟨none, some exSessionTok, some [99]⟩ 5 false
        ⟨0, false, none, some [110, 84], true⟩).res = .ok [110, 84]
    ∧ (issueToken ⟨none, some exSessionTok, some [99]⟩ 5 false
        ⟨0, false, none, some [110, 84], true⟩).cacheWrites
        = [([110, 84], 0o600)]
    ∧ jsonParse [110, 84] = none := by
  refine ⟨rfl, rfl, by decide, by decide, rfl⟩

/-- C4 amended: after a successful unforced session-to-bearer exchange on
a source with a cache directory, the cache file is written with mode
0o600 and contains exactly the raw newly issued credential string (not a
JSON record); a forced exchange writes nothing. -/
theorem c4_cache_write_raw (bt : Option JStr) (st cd : JStr) (d : Int)
    (force : Bool) (w : World) (tok : JStr) :
    ((issueToken ⟨bt, some st, some cd⟩ d force w).requested ≠ []
      → (issueToken ⟨bt, some st, some cd⟩ d force w).res = .ok tok
      → (force || w.forceFlag) = false
      → (issueToken ⟨bt, some st, some cd⟩ d force w).cacheWrites
          = [(tok, 0o600)])
    ∧ ((force || w.forceFlag) = true
      → (issueToken ⟨bt, some st, some cd⟩ d force w).cacheWrites = []) := by
  constructor
  · intro hreq hres hf
    cases hsc : extractClaims st with
    | none => simp [issueToken, issueFromSession, hf, hsc] at hreq
    | some sc =>
      cases hhit : cacheProbe (some cd) w.cacheRead sc w.now d with
      | some c => simp [issueToken, issueFromSession, hf, hsc, hhit] at hreq
      | none =>
        cases hi : w.issuer with
        | none => simp [issueToken, issueFromSession, hf, hsc, hhit, hi] at hres
        | some t2 =>
          simp only [issueToken, issueFromSession, hf, Bool.false_eq_true,
            if_false, hsc, hhit, hi] at hres ⊢
          cases hres
          rfl
  · intro hf
    cases hi : w.issuer <;> simp [issueToken, issueFromSession, hf, hi]

set_option maxRecDepth 100000 in
/-- C4 amended witness: an unforced cache-miss exchange caches the raw
issued two-unit credential with mode 0o600. -/
theorem c4_cache_write_raw_witness :
    (issueToken ⟨none, some exSessionTok, some [99]⟩ 5 false
        ⟨0, false, none, some [110, 84], true⟩).cacheWrites
      = [([110, 84], 0o600)] :=
  (c4_cache_write_raw none exSessionTok [99] 5 false
      ⟨0, false, none, some [110, 84], true⟩ [110, 84]).1
    (by decide) (by decide) rfl

/-- C8: claims round-trip.  For every credential of the form header, dot,
base64url of the JSON text of an object, dot, signature (header and
signature dot-free, the object well-formed for the code-unit-and-integer
model), extractClaims returns exactly that object; and for every string
whose marker-stripped form does not split into exactly three dot-separated
segments, extractClaims returns null. -/
theorem c8_extract_claims_roundtrip :
    (∀ (header sig : JStr) (o : JsObj),
        (∀ u ∈ header, u ≠ 46) → (∀ u ∈ sig, u ≠ 46) →
        wfVal (.jobj o) = true →
        extractClaims (header ++ 46 :: (b64urlEncode (jsonText (.jobj o))
          ++ 46 :: sig)) = some (.jobj o))
    ∧ (∀ s : JStr, (splitOnDot (stripTokenPrefix s)).length ≠ 3 →
        extractClaims s = none) := by
  constructor
  · intro header sig o hh hs hwf
    exact extractClaims_roundtrip header sig (.jobj o) hh hs hwf
  · intro s h
    simp [extractClaims, h]

set_option maxRecDepth 100000 in
/-- C8 witness: the concrete example claims object round-trips through a
credential with header h and signature s, and a one-segment string yields
null. -/
theorem c8_extract_claims_roundtrip_witness :
    extractClaims ([104] ++ 46 :: (b64urlEncode (jsonText (.jobj exClaimsMembers))
      ++ 46 :: [115])) = some (.jobj exClaimsMembers)
    ∧ extractClaims [120] = none :=
  ⟨c8_extract_claims_roundtrip.1 [104] [115] exClaimsMembers
      (by decide) (by decide) (by decide),
    c8_extract_claims_roundtrip.2 [120] (by decide)⟩

end NamespaceSDK
